import Mathlib

/-!
Verification development for the radio-metadata-streamer repository
(a multi-station ICY metadata proxy written in Go).

Each Go function relevant to the checked properties is shallowly embedded
as an executable Lean definition operating on lists of byte values
(natural numbers below 256 in the program; byte identity is irrelevant to
every property proved here, so bytes are plain naturals).  Stateful loops
are embedded as explicit state-passing recursion; loops whose termination
is not structural take an explicit fuel argument, and fuel sufficiency is
established separately.
-/

namespace Icy

/-- Embedding of `icy.BuildBlock` (internal/infrastructure/icy).
The Go function takes a string and works on its UTF-8 bytes; the embedding
takes the byte sequence directly.  Go source:
`if text == "" { return []byte{0x00} }`, truncate payload to 255*16 bytes,
`blocks := (len(payload)+15)/16`, cap at 255, pad with zero bytes, and emit
`byte(blocks)` followed by the payload and the padding. -/
def BuildBlock (text : List Nat) : List Nat :=
  if text = [] then [0]
  else
    let payload := text
    let payload := if payload.length > 255 * 16 then payload.take (255 * 16) else payload
    let blocks := (payload.length + 15) / 16
    let blocks := if blocks > 255 then 255 else blocks
    let pad := blocks * 16 - payload.length
    (blocks % 256) :: (payload ++ List.replicate pad 0)

example : BuildBlock [] = [0] := by decide

example : BuildBlock [65] = [1, 65, 0, 0, 0, 0, 0, 0, 0, 0, 0, 0, 0, 0, 0, 0, 0] := by decide

example : (BuildBlock (List.replicate 16 7)).length = 17 := by decide

example : (BuildBlock (List.replicate 17 7)).length = 33 := by decide

/-- Helper: the truncated payload used by `BuildBlock`. -/
lemma buildBlock_payload_eq (text : List Nat) :
    (if text.length > 255 * 16 then text.take (255 * 16) else text) = text.take 4080 := by
  by_cases h : text.length > 255 * 16
  · simp [h]
  · have h' : text.length ≤ 4080 := by omega
    simp [h, List.take_of_length_le h']

/-- C2: `BuildBlock` returns `[0x00]` on empty input; otherwise, with `P` the
input truncated to at most 4080 bytes and `B = ceil(|P|/16)` capped at 255, it
returns `B` followed by `P` followed by `B*16 - |P|` zero bytes, for a total
length of `1 + 16*B`. -/
theorem buildBlock_spec (text : List Nat) :
    (text = [] → BuildBlock text = [0]) ∧
    (text ≠ [] →
      BuildBlock text =
        min ((( text.take 4080).length + 15) / 16) 255 ::
          (text.take 4080 ++
            List.replicate (min (((text.take 4080).length + 15) / 16) 255 * 16 -
              (text.take 4080).length) 0) ∧
      (BuildBlock text).length =
        1 + 16 * min (((text.take 4080).length + 15) / 16) 255) := by
  constructor
  · intro h
    simp [BuildBlock, h]
  · intro h
    have hPlen : (text.take 4080).length ≤ 4080 := by
      simp [List.length_take]
    have hBle : ((text.take 4080).length + 15) / 16 ≤ 255 := by omega
    have hmin : min (((text.take 4080).length + 15) / 16) 255 =
        ((text.take 4080).length + 15) / 16 := Nat.min_eq_left hBle
    have hdiv := Nat.div_add_mod ((text.take 4080).length + 15) 16
    have hmod : ((text.take 4080).length + 15) % 16 < 16 :=
      Nat.mod_lt _ (by norm_num)
    have hPleB : (text.take 4080).length ≤ (((text.take 4080).length + 15) / 16) * 16 := by
      omega
    have hcap : ¬ ((text.take 4080).length + 15) / 16 > 255 := by omega
    have hsmall : ((text.take 4080).length + 15) / 16 % 256 =
        ((text.take 4080).length + 15) / 16 := Nat.mod_eq_of_lt (by omega)
    refine ⟨?_, ?_⟩
    · simp only [BuildBlock, h, if_false, buildBlock_payload_eq, hcap, hmin, hsmall]
    · simp only [BuildBlock, h, if_false, buildBlock_payload_eq, hcap, hsmall]
      simp only [List.length_cons, List.length_append, List.length_replicate]
      omega

/-- Witness for C2 at the 17-byte boundary input: a non-empty payload of 17
bytes yields length byte 2 and a 33-byte block. -/
theorem buildBlock_spec_witness :
    BuildBlock (List.replicate 17 7) =
      min ((((List.replicate 17 (7:Nat)).take 4080).length + 15) / 16) 255 ::
        ((List.replicate 17 (7:Nat)).take 4080 ++
          List.replicate (min ((((List.replicate 17 (7:Nat)).take 4080).length + 15) / 16) 255 * 16 -
            ((List.replicate 17 (7:Nat)).take 4080).length) 0) ∧
    (BuildBlock (List.replicate 17 7)).length =
      1 + 16 * min ((((List.replicate 17 (7:Nat)).take 4080).length + 15) / 16) 255 :=
  (buildBlock_spec (List.replicate 17 7)).2 (by decide)

end Icy

namespace Handler

/-- Bytes of the Go string literal substituted by `StreamHandler.ServeHTTP`
when the current metadata cell is empty (ASCII for StreamTitle followed by
an equals sign, two single quotes and a semicolon). -/
def streamTitleEmpty : List Nat :=
  [83, 116, 114, 101, 97, 109, 84, 105, 116, 108, 101, 61, 39, 39, 59]

/-- One item written to the listener transport: either audio payload bytes or
an injected ICY metadata block. -/
inductive Seg where
  | audio (bs : List Nat)
  | meta (bs : List Nat)
deriving DecidableEq, Repr

/-- Embedding of the inner `for len(chunk) > 0` loop of
`StreamHandler.ServeHTTP` (internal/infrastructure/http/handlers.go).
State: `bum` is the Go variable `bytesUntilMeta`; writes are modelled as
emitted `Seg` items (the transport accepts every byte, the error paths of
`w.Write` are listener disconnects that end the session).  The loop is not
structurally recursive (an iteration with `bytesUntilMeta = 0` consumes no
input), so it takes fuel; `writeChunk` supplies fuel sufficient for every
reachable state. -/
def writeLoop (wantsMeta : Bool) (metaInt : Nat) (metaText : List Nat) :
    Nat → Nat → List Nat → List Seg × Nat
  | 0, bum, _ => ([], bum)
  | fuel + 1, bum, chunk =>
    if chunk = [] then ([], bum)
    else
      if wantsMeta then
        let toWrite := min chunk.length bum
        let written := chunk.take toWrite
        let rest := chunk.drop toWrite
        let bum' := bum - toWrite
        if bum' = 0 then
          let meta := if metaText = [] then streamTitleEmpty else metaText
          let block := Icy.BuildBlock meta
          let r := writeLoop wantsMeta metaInt metaText fuel metaInt rest
          (Seg.audio written :: Seg.meta block :: r.1, r.2)
        else
          let r := writeLoop wantsMeta metaInt metaText fuel bum' rest
          (Seg.audio written :: r.1, r.2)
      else
        ([Seg.audio chunk], bum)

/-- Processing of one chunk received from the fan-out channel: run the write
loop to completion on it.  `chunk.length + 1` fuel steps always suffice when
`metaInt ≥ 1` (each iteration then consumes at least one byte). -/
def writeChunk (wantsMeta : Bool) (metaInt : Nat) (metaText : List Nat)
    (bum : Nat) (chunk : List Nat) : List Seg × Nat :=
  writeLoop wantsMeta metaInt metaText (chunk.length + 1) bum chunk

/-- Embedding of the chunk-consuming `for { select ... } }` of
`StreamHandler.ServeHTTP`: `bytesUntilMeta` starts at `metaInt` when the
listener negotiated metadata and at 0 otherwise (both Go variables default
to 0 and are only assigned under `wantsMetadata`). -/
def emit (wantsMeta : Bool) (metaInt : Nat) (metaText : List Nat)
    (chunks : List (List Nat)) : List Seg × Nat :=
  chunks.foldl
    (fun acc c =>
      let r := writeChunk wantsMeta metaInt metaText acc.2 c
      (acc.1 ++ r.1, r.2))
    ([], if wantsMeta then metaInt else 0)

/-- Response headers set by `StreamHandler.ServeHTTP`, by name. -/
inductive HeaderName where
  | contentType
  | icyName
  | icyBr
  | cacheControl
  | connection
  | icyMetaint
deriving DecidableEq, Repr

/-- The headers set on the stream response, in the order of the Go code:
the five unconditional headers, then `icy-metaint` only when the request
carried Icy-MetaData: 1. -/
def streamHeaders (wantsMeta : Bool) : List HeaderName :=
  [HeaderName.contentType, HeaderName.icyName, HeaderName.icyBr,
   HeaderName.cacheControl, HeaderName.connection] ++
    (if wantsMeta then [HeaderName.icyMetaint] else [])

/-- Audio byte counts accumulated before each injected metadata block:
`cur` is the number of payload bytes seen since the previous block. -/
def gapsAux (cur : Nat) : List Seg → List Nat
  | [] => []
  | Seg.audio a :: r => gapsAux (cur + a.length) r
  | Seg.meta _ :: r => cur :: gapsAux 0 r

/-- Audio bytes after the last injected metadata block (or since the start
when no block was emitted), continuing the count `cur`. -/
def trailAux (cur : Nat) : List Seg → Nat
  | [] => cur
  | Seg.audio a :: r => trailAux (cur + a.length) r
  | Seg.meta _ :: r => trailAux 0 r

/-- The injected metadata blocks of an output, in order. -/
def metaBlocksOf : List Seg → List (List Nat)
  | [] => []
  | Seg.audio _ :: r => metaBlocksOf r
  | Seg.meta b :: r => b :: metaBlocksOf r

/-- The audio payload of an output, concatenated in order. -/
def audioBytesOf : List Seg → List Nat
  | [] => []
  | Seg.audio a :: r => a ++ audioBytesOf r
  | Seg.meta _ :: r => audioBytesOf r

example :
    emit true 2 [] [[1, 2, 3]] =
      ([Seg.audio [1, 2], Seg.meta (Icy.BuildBlock streamTitleEmpty), Seg.audio [3]], 1) := by
  decide

example : gapsAux 0 (emit true 2 [] [[1, 2, 3]]).1 = [2] := by decide

example : emit false 2 [] [[1, 2], [3]] = ([Seg.audio [1, 2], Seg.audio [3]], 0) := by decide

lemma gapsAux_append (s1 s2 : List Seg) : ∀ cur,
    gapsAux cur (s1 ++ s2) = gapsAux cur s1 ++ gapsAux (trailAux cur s1) s2 := by
  induction s1 with
  | nil => intro cur; simp [gapsAux, trailAux]
  | cons s r ih =>
    intro cur
    cases s with
    | audio a => simp [gapsAux, trailAux, ih]
    | meta b => simp [gapsAux, trailAux, ih]

lemma trailAux_append (s1 s2 : List Seg) : ∀ cur,
    trailAux cur (s1 ++ s2) = trailAux (trailAux cur s1) s2 := by
  induction s1 with
  | nil => intro cur; simp [trailAux]
  | cons s r ih =>
    intro cur
    cases s with
    | audio a => simp [trailAux, ih]
    | meta b => simp [trailAux, ih]

/-- Interval-counting invariant of the inner write loop: starting with `cur`
payload bytes already counted since the last block and `cur + bum = M`, every
block boundary falls exactly at `M` counted payload bytes, and on exit the
trailing count plus the remaining counter again equals `M`. -/
lemma writeLoop_gaps (M : Nat) (mt : List Nat) :
    ∀ fuel chunk bum cur, 1 ≤ M → 1 ≤ bum → cur + bum = M → chunk.length < fuel →
      (∀ g ∈ gapsAux cur (writeLoop true M mt fuel bum chunk).1, g = M) ∧
      trailAux cur (writeLoop true M mt fuel bum chunk).1 +
        (writeLoop true M mt fuel bum chunk).2 = M ∧
      1 ≤ (writeLoop true M mt fuel bum chunk).2 := by
  intro fuel
  induction fuel with
  | zero => intro chunk bum cur _ _ _ h; omega
  | succ fuel ih =>
    intro chunk bum cur hM hb hsum hlen
    by_cases hc : chunk = []
    · subst hc
      simp [writeLoop, gapsAux, trailAux, hsum, hb]
    · have hclen : 1 ≤ chunk.length := List.length_pos.mpr hc
      have htw : min chunk.length bum = min chunk.length bum := rfl
      set toWrite := min chunk.length bum with htwdef
      have htw1 : 1 ≤ toWrite := le_min hclen hb
      have htwb : toWrite ≤ bum := min_le_right _ _
      have htwc : toWrite ≤ chunk.length := min_le_left _ _
      have hwlen : (chunk.take toWrite).length = toWrite := by
        simp [List.length_take, htwc]
      have hrlen : (chunk.drop toWrite).length < fuel := by
        simp only [List.length_drop]; omega
      by_cases hz : bum - toWrite = 0
      · have htweq : toWrite = bum := by omega
        have hrec := ih (chunk.drop toWrite) M 0 hM hM (by omega) hrlen
        simp only [writeLoop, if_neg hc, if_pos rfl, ← htwdef, if_pos hz]
        simp only [gapsAux, trailAux, hwlen]
        refine ⟨?_, ?_, hrec.2.2⟩
        · intro g hg
          rcases List.mem_cons.mp hg with h1 | h2
          · omega
          · exact hrec.1 g h2
        · exact hrec.2.1
      · have hrec := ih (chunk.drop toWrite) (bum - toWrite) (cur + toWrite)
          hM (by omega) (by omega) hrlen
        simp only [writeLoop, if_neg hc, if_pos rfl, ← htwdef, if_neg hz]
        simp only [gapsAux, trailAux, hwlen]
        exact hrec

/-- The fold over delivered chunks preserves the interval invariant. -/
lemma emit_fold_gaps (M : Nat) (mt : List Nat) :
    ∀ (chunks : List (List Nat)) (acc : List Seg × Nat), 1 ≤ M →
      (∀ g ∈ gapsAux 0 acc.1, g = M) →
      trailAux 0 acc.1 + acc.2 = M → 1 ≤ acc.2 →
      (∀ g ∈ gapsAux 0 (chunks.foldl
          (fun acc c =>
            (acc.1 ++ (writeChunk true M mt acc.2 c).1, (writeChunk true M mt acc.2 c).2)) acc).1,
        g = M) ∧
      trailAux 0 (chunks.foldl
          (fun acc c =>
            (acc.1 ++ (writeChunk true M mt acc.2 c).1, (writeChunk true M mt acc.2 c).2)) acc).1 +
        (chunks.foldl
          (fun acc c =>
            (acc.1 ++ (writeChunk true M mt acc.2 c).1, (writeChunk true M mt acc.2 c).2)) acc).2 = M ∧
      1 ≤ (chunks.foldl
          (fun acc c =>
            (acc.1 ++ (writeChunk true M mt acc.2 c).1, (writeChunk true M mt acc.2 c).2)) acc).2 := by
  intro chunks
  induction chunks with
  | nil => intro acc hM hg ht hb; exact ⟨hg, ht, hb⟩
  | cons c cs ih =>
    intro acc hM hg ht hb
    have hloop := writeLoop_gaps M mt (c.length + 1) c acc.2 (trailAux 0 acc.1)
      hM hb ht (by omega)
    simp only [List.foldl_cons]
    refine ih _ hM ?_ ?_ ?_
    · intro g hgmem
      rw [gapsAux_append] at hgmem
      rcases List.mem_append.mp hgmem with h1 | h2
      · exact hg g h1
      · exact hloop.1 g h2
    · simp only [trailAux_append]
      exact hloop.2.1
    · exact hloop.2.2

/-- C1: for a session negotiated with Icy-MetaData: 1 on a station with
metaint `M ≥ 1`, and any sequence of delivered chunks, every count of payload
bytes accumulated at a metadata-block boundary is exactly `M` (so exactly `M`
payload bytes separate consecutive blocks), the final `bytesUntilMeta`
satisfies `1 ≤ bytesUntilMeta ≤ M`, and it equals `M` minus the payload bytes
emitted since the last block (it was reset to `M` right after that block). -/
theorem stream_interval_exact (M : Nat) (mt : List Nat) (chunks : List (List Nat))
    (hM : 1 ≤ M) :
    (∀ g ∈ gapsAux 0 (emit true M mt chunks).1, g = M) ∧
    trailAux 0 (emit true M mt chunks).1 + (emit true M mt chunks).2 = M ∧
    1 ≤ (emit true M mt chunks).2 ∧ (emit true M mt chunks).2 ≤ M := by
  have h := emit_fold_gaps M mt chunks ([], M) hM
    (by intro g hg; simp [gapsAux] at hg) (by simp [trailAux]) hM
  simp only [emit, if_true]
  exact ⟨h.1, h.2.1, h.2.2, by have := h.2.1; omega⟩

/-- Witness for C1: `M = 2`, one three-byte chunk; the single gap is 2 and
the final counter is 1. -/
theorem stream_interval_exact_witness :
    (∀ g ∈ gapsAux 0 (emit true 2 [] [[1, 2, 3]]).1, g = 2) ∧
    trailAux 0 (emit true 2 [] [[1, 2, 3]]).1 + (emit true 2 [] [[1, 2, 3]]).2 = 2 ∧
    1 ≤ (emit true 2 [] [[1, 2, 3]]).2 ∧ (emit true 2 [] [[1, 2, 3]]).2 ≤ 2 :=
  stream_interval_exact 2 [] [[1, 2, 3]] (by decide)

lemma metaBlocksOf_append (s1 s2 : List Seg) :
    metaBlocksOf (s1 ++ s2) = metaBlocksOf s1 ++ metaBlocksOf s2 := by
  induction s1 with
  | nil => simp [metaBlocksOf]
  | cons s r ih =>
    cases s with
    | audio a => simp [metaBlocksOf, ih]
    | meta b => simp [metaBlocksOf, ih]

lemma audioBytesOf_append (s1 s2 : List Seg) :
    audioBytesOf (s1 ++ s2) = audioBytesOf s1 ++ audioBytesOf s2 := by
  induction s1 with
  | nil => simp [audioBytesOf]
  | cons s r ih =>
    cases s with
    | audio a => simp [audioBytesOf, ih]
    | meta b => simp [audioBytesOf, ih]

/-- Without negotiated metadata the loop forwards the chunk verbatim in one
iteration and never touches the counter. -/
lemma writeChunk_no_meta (M : Nat) (mt : List Nat) (bum : Nat) (c : List Nat) :
    writeChunk false M mt bum c = (if c = [] then [] else [Seg.audio c], bum) := by
  by_cases hc : c = []
  · simp [writeChunk, writeLoop, hc]
  · simp [writeChunk, writeLoop, hc]

/-- C7: a session without Icy-MetaData: 1 gets no icy-metaint response header,
no injected ICY block of any length, and a body that is exactly the
concatenation of the delivered source chunks. -/
theorem no_meta_client_passthrough (M : Nat) (mt : List Nat) (chunks : List (List Nat)) :
    HeaderName.icyMetaint ∉ streamHeaders false ∧
    metaBlocksOf (emit false M mt chunks).1 = [] ∧
    audioBytesOf (emit false M mt chunks).1 = chunks.flatten := by
  refine ⟨by decide, ?_⟩
  have main : ∀ (cs : List (List Nat)) (acc : List Seg × Nat),
      metaBlocksOf (cs.foldl
        (fun acc c =>
          (acc.1 ++ (writeChunk false M mt acc.2 c).1, (writeChunk false M mt acc.2 c).2)) acc).1 =
        metaBlocksOf acc.1 ∧
      audioBytesOf (cs.foldl
        (fun acc c =>
          (acc.1 ++ (writeChunk false M mt acc.2 c).1, (writeChunk false M mt acc.2 c).2)) acc).1 =
        audioBytesOf acc.1 ++ cs.flatten := by
    intro cs
    induction cs with
    | nil => intro acc; simp
    | cons c rest ih =>
      intro acc
      simp only [List.foldl_cons]
      rcases ih ((acc.1 ++ (writeChunk false M mt acc.2 c).1, (writeChunk false M mt acc.2 c).2)) with ⟨h1, h2⟩
      constructor
      · rw [h1]
        simp only [writeChunk_no_meta, metaBlocksOf_append]
        by_cases hc : c = [] <;> simp [hc, metaBlocksOf]
      · rw [h2]
        simp only [writeChunk_no_meta, audioBytesOf_append]
        by_cases hc : c = [] <;> simp [hc, audioBytesOf]
  have h := main chunks ([], 0)
  simp only [emit, if_neg (by decide : ¬ (false = true))]
  constructor
  · rw [h.1]; rfl
  · rw [h.2]; simp [audioBytesOf]

/-- Counterexample to C5: with an empty metadata cell and metaint 1, the block
injected after the first byte is not the single zero byte block (the handler
substitutes a placeholder StreamTitle text before encoding). -/
theorem empty_meta_block_counterexample :
    metaBlocksOf (emit true 1 [] [[9]]).1 ≠ [[0]] := by decide

/-- Every metadata block the write loop injects encodes the effective text:
the cell snapshot, or the placeholder when the snapshot is empty. -/
lemma writeLoop_blocks (M : Nat) (mt : List Nat) :
    ∀ fuel bum chunk,
      ∀ blk ∈ metaBlocksOf (writeLoop true M mt fuel bum chunk).1,
        blk = Icy.BuildBlock (if mt = [] then streamTitleEmpty else mt) := by
  intro fuel
  induction fuel with
  | zero => intro bum chunk blk hblk; simp [writeLoop, metaBlocksOf] at hblk
  | succ fuel ih =>
    intro bum chunk blk hblk
    by_cases hc : chunk = []
    · simp [writeLoop, hc, metaBlocksOf] at hblk
    · simp only [writeLoop, if_neg hc, if_pos rfl] at hblk
      by_cases hz : bum - min chunk.length bum = 0
      · simp only [if_pos hz, metaBlocksOf] at hblk
        rcases List.mem_cons.mp hblk with h1 | h2
        · exact h1
        · exact ih _ _ blk h2
      · simp only [if_neg hz, metaBlocksOf] at hblk
        exact ih _ _ blk hblk

/-- C5 (amended): at each interval boundary of an ICY session, the injected
block is `BuildBlock` applied to the cell snapshot with the empty snapshot
replaced by the placeholder text StreamTitle with empty quotes, never the
single zero byte. -/
theorem empty_meta_block_amended (M : Nat) (mt : List Nat) (chunks : List (List Nat)) :
    ∀ blk ∈ metaBlocksOf (emit true M mt chunks).1,
      blk = Icy.BuildBlock (if mt = [] then streamTitleEmpty else mt) := by
  have main : ∀ (cs : List (List Nat)) (acc : List Seg × Nat),
      (∀ blk ∈ metaBlocksOf acc.1,
        blk = Icy.BuildBlock (if mt = [] then streamTitleEmpty else mt)) →
      ∀ blk ∈ metaBlocksOf (cs.foldl
        (fun acc c =>
          (acc.1 ++ (writeChunk true M mt acc.2 c).1, (writeChunk true M mt acc.2 c).2)) acc).1,
        blk = Icy.BuildBlock (if mt = [] then streamTitleEmpty else mt) := by
    intro cs
    induction cs with
    | nil => intro acc hacc; exact hacc
    | cons c rest ih =>
      intro acc hacc
      simp only [List.foldl_cons]
      refine ih _ ?_
      intro blk hblk
      rw [metaBlocksOf_append] at hblk
      rcases List.mem_append.mp hblk with h1 | h2
      · exact hacc blk h1
      · exact writeLoop_blocks M mt _ _ _ blk h2
  intro blk hblk
  refine main chunks ([], M) (by intro b hb; simp [metaBlocksOf] at hb) blk ?_
  simpa only [emit, if_true] using hblk

/-- Witness for the amended C5: metaint 1, empty cell, one delivered byte;
the injected block encodes the placeholder. -/
theorem empty_meta_block_amended_witness :
    (Icy.BuildBlock streamTitleEmpty) ∈ metaBlocksOf (emit true 1 [] [[9]]).1 ∧
    Icy.BuildBlock streamTitleEmpty =
      Icy.BuildBlock (if ([] : List Nat) = [] then streamTitleEmpty else []) :=
  ⟨by decide,
    empty_meta_block_amended 1 [] [[9]] (Icy.BuildBlock streamTitleEmpty) (by decide)⟩

end Handler

namespace Station

/-- The metadata cell of a `Station` (internal/domain/station): the
`currentMeta` atomic string pointer and the `lastMetaAt` atomic timestamp,
both nil until the first successful update.  Timestamps are abstract instants
(naturals). -/
structure MetaCell where
  current : Option (List Nat)
  lastAt : Option Nat
deriving DecidableEq, Repr

/-- Embedding of `Station.UpdateMetadata`: store the new string and stamp the
current time, unconditionally. -/
def UpdateMetadata (_c : MetaCell) (meta : List Nat) (now : Nat) : MetaCell :=
  { current := some meta, lastAt := some now }

/-- Embedding of `Station.CurrentMetadata`: the stored string, or empty while
the pointer is still nil. -/
def CurrentMetadata (c : MetaCell) : List Nat :=
  match c.current with
  | none => []
  | some m => m

/-- One wake of `Station.runMetadataPoller` (the initial immediate fetch and
each tick body are identical): `fetch` is the result of
`s.metadata.Fetch(ctx)`, `none` meaning an error; on success the cell is
updated, on error nothing at all happens. -/
def pollTick (c : MetaCell) (fetch : Option (List Nat)) (now : Nat) : MetaCell :=
  match fetch with
  | some meta => UpdateMetadata c meta now
  | none => c

/-- The poller over a whole trace of wakes, each with its fetch outcome and
its instant. -/
def runMetadataPoller (c0 : MetaCell) (events : List (Option (List Nat) × Nat)) : MetaCell :=
  events.foldl (fun c e => pollTick c e.1 e.2) c0

/-- C6 at its failing input: one successful fetch of the byte 65 at instant 0,
then fetch failures at instants far beyond the five-minute stale TTL of the
spec (300000 ms): the published cell and its timestamp are exactly what the
first success stored, and the served metadata is still non-empty — the poller
has no stale-TTL handling at all. -/
theorem poller_ignores_stale_ttl :
    runMetadataPoller { current := none, lastAt := none }
        [(some [65], 0), (none, 301000), (none, 900000)] =
      { current := some [65], lastAt := some 0 } ∧
    CurrentMetadata (runMetadataPoller { current := none, lastAt := none }
        [(some [65], 0), (none, 301000), (none, 900000)]) = [65] ∧
    900000 - 0 > 300000 := by
  refine ⟨rfl, rfl, by norm_num⟩

/-- Counterexample to C9: the published cell holds the byte 65 with
timestamp 0; a successful fetch of the identical value at instant 5 still
replaces the cell and advances the timestamp. -/
theorem poll_equal_value_counterexample :
    ¬ pollTick { current := some [65], lastAt := some 0 } (some [65]) 5 =
        { current := some [65], lastAt := some 0 } := by
  decide

/-- C9 (amended): on every successful poll the poller stores the fetched
value and updates the timestamp unconditionally, whether or not the value
differs from the published cell; only on a failed poll is the cell left
untouched. -/
theorem poll_always_publishes (c : MetaCell) (meta : List Nat) (now : Nat) :
    pollTick c (some meta) now = { current := some meta, lastAt := some now } ∧
    pollTick c none now = c := by
  exact ⟨rfl, rfl⟩

end Station

namespace Reader

/-- The outcome of one `stream.Read(buf)` call in `Station.runSourceReader`:
the bytes delivered (`n > 0` iff nonempty) and the error value, `none` for a
nil error, `some true` for io.EOF, `some false` for any other error. -/
structure ReadEv where
  chunk : List Nat
  err : Option Bool
deriving DecidableEq, Repr

/-- Observable result of the source-reader goroutine: the final health flag,
the chunks it forwarded (to the ring buffer and the fan-out bus), and how
many times it called `source.Connect`. -/
structure ReaderResult where
  healthy : Bool
  chunks : List (List Nat)
  connectsUsed : Nat
deriving DecidableEq, Repr

/-- The read loop of `Station.runSourceReader`: each event is one `Read`
return; a nonempty chunk is copied and forwarded; a non-nil error ends the
loop, marking the source unhealthy unless the error is io.EOF.  The Boolean
carried is the health flag (set to true right after connecting). -/
def processReads : List ReadEv → List (List Nat) × Bool
  | [] => ([], true)
  | ev :: rest =>
    let emitted := if ev.chunk = [] then [] else [ev.chunk]
    match ev.err with
    | some eof => (emitted, eof)
    | none =>
      let r := processReads rest
      (emitted ++ r.1, r.2)

/-- Embedding of `Station.runSourceReader` over a supply of connect outcomes
(`none` = `Connect` returned an error, `some evs` = HTTP 200 with the given
read trace).  The Go function calls `Connect` exactly once: on error it sets
the health flag false and returns; on success it runs the read loop and
returns when the loop ends.  No path loops back to another connect attempt. -/
def runSourceReader (connects : List (Option (List ReadEv))) : ReaderResult :=
  match connects with
  | [] => { healthy := false, chunks := [], connectsUsed := 0 }
  | none :: _ => { healthy := false, chunks := [], connectsUsed := 1 }
  | some evs :: _ =>
    let r := processReads evs
    { healthy := r.2, chunks := r.1, connectsUsed := 1 }

/-- C3 at its failing input: the first connect attempt fails while a second
attempt would succeed with data; the reader nevertheless stops after the
first attempt — one connect call consumed, no chunks forwarded, unhealthy —
instead of retrying with backoff as the specification and the repository
README promise. -/
theorem reader_gives_up_on_first_failure :
    runSourceReader [none, some [{ chunk := [1, 2, 3], err := some true }]] =
      { healthy := false, chunks := [], connectsUsed := 1 } ∧
    runSourceReader [some [{ chunk := [1, 2, 3], err := some false }],
        some [{ chunk := [4], err := some true }]] =
      { healthy := false, chunks := [[1, 2, 3]], connectsUsed := 1 } := by
  exact ⟨rfl, rfl⟩

end Reader

namespace FanOut

/-- Embedding of the chunk submission in `Station.runSourceReader`:
`select { case s.chunkBus <- chunk: ... case <-s.ctx.Done(): return }` has no
default case, so with bus space the chunk is enqueued and otherwise the
goroutine blocks until space or cancellation — represented by `none`. -/
def busSubmit (cap : Nat) (q : List (List Nat)) (chunk : List Nat) :
    Option (List (List Nat)) :=
  if q.length < cap then some (q ++ [chunk]) else none

/-- Embedding of the per-client offer in `Station.runFanOut`:
`select { case client.ch <- chunk: default: }` — the default case drops the
chunk for that client when its mailbox is full, without blocking. -/
def deliverToClient (cap : Nat) (box : List (List Nat)) (chunk : List Nat) :
    List (List Nat) :=
  if box.length < cap then box ++ [chunk] else box

/-- One dispatch of `Station.runFanOut`: the same chunk is offered to every
subscribed client mailbox independently. -/
def fanOutStep (cap : Nat) (boxes : List (List (List Nat))) (chunk : List Nat) :
    List (List (List Nat)) :=
  boxes.map (fun box => deliverToClient cap box chunk)

/-- Counterexample to C4: submitting to a full fan-out bus (capacity 1,
one queued chunk) does not complete as a drop leaving the queue unchanged —
the select blocks (no default case), so the producer step does not proceed. -/
theorem bus_submit_blocks_counterexample :
    busSubmit 1 [[0]] [1] = none ∧ busSubmit 1 [[0]] [1] ≠ some [[0]] := by
  decide

/-- C4 (amended): delivery from the fan-out dispatcher to a session mailbox
is a non-blocking offer — a full mailbox drops the chunk for that session
only, leaving its mailbox unchanged while every non-full mailbox receives the
chunk — but the Source Reader submission to the bus is a blocking send:
it enqueues when the bus has space and otherwise waits (for space or
shutdown) rather than dropping. -/
theorem fanout_drop_bus_blocks (cap : Nat) (q box : List (List Nat))
    (boxes : List (List (List Nat))) (chunk : List Nat) :
    (q.length < cap → busSubmit cap q chunk = some (q ++ [chunk])) ∧
    (¬ q.length < cap → busSubmit cap q chunk = none) ∧
    (box.length < cap → deliverToClient cap box chunk = box ++ [chunk]) ∧
    (¬ box.length < cap → deliverToClient cap box chunk = box) ∧
    (fanOutStep cap boxes chunk).length = boxes.length ∧
    (∀ i (h : i < boxes.length),
      (fanOutStep cap boxes chunk).get ⟨i, by simpa [fanOutStep] using h⟩ =
        deliverToClient cap (boxes.get ⟨i, h⟩) chunk) := by
  refine ⟨?_, ?_, ?_, ?_, by simp [fanOutStep], ?_⟩
  · intro h; simp [busSubmit, h]
  · intro h; simp [busSubmit, h]
  · intro h; simp [deliverToClient, h]
  · intro h; simp [deliverToClient, h]
  · intro i h
    simp [fanOutStep]

/-- Witness for the amended C4 with bus capacity 1: a full bus blocks, a full
mailbox drops, a non-full mailbox receives, and the other mailboxes of the
dispatch are unaffected. -/
theorem fanout_drop_bus_blocks_witness :
    (([[0]] : List (List Nat)).length < 1 → busSubmit 1 [[0]] [9] = some ([[0]] ++ [[9]])) ∧
    (¬ ([[0]] : List (List Nat)).length < 1 → busSubmit 1 [[0]] [9] = none) ∧
    (([[0]] : List (List Nat)).length < 1 → deliverToClient 1 [[0]] [9] = [[0]] ++ [[9]]) ∧
    (¬ ([[0]] : List (List Nat)).length < 1 → deliverToClient 1 [[0]] [9] = [[0]]) ∧
    (fanOutStep 1 [[], [[0]]] [9]).length = ([[], [[0]]] : List (List (List Nat))).length ∧
    (∀ i (h : i < ([[], [[0]]] : List (List (List Nat))).length),
      (fanOutStep 1 [[], [[0]]] [9]).get ⟨i, by simpa [fanOutStep] using h⟩ =
        deliverToClient 1 (([[], [[0]]] : List (List (List Nat))).get ⟨i, h⟩) [9]) :=
  fanout_drop_bus_blocks 1 [[0]] [[0]] [[], [[0]]] [9]

end FanOut

namespace Ring

/-- Embedding of `ring.Buffer`: the fixed backing array `buf`, the cursor `w`
(the oldest held byte; the Go comment calls it the write position but every
use — overflow advance and `Snapshot` start — treats it as the read head),
and the byte count `n`. -/
structure Buffer where
  buf : List Nat
  w : Nat
  n : Nat
deriving DecidableEq, Repr

/-- Embedding of `ring.New`: a zeroed backing array of the given size. -/
def New (size : Nat) : Buffer :=
  { buf := List.replicate size 0, w := 0, n := 0 }

/-- Go `copy(buf[start:start+len(src)], src)` when the source fits: replace
the segment of `buf` beginning at `start` by `src`. -/
def setSeg (buf : List Nat) (start : Nat) (src : List Nat) : List Nat :=
  buf.take start ++ src ++ buf.drop (start + src.length)

/-- The overflow arm of `ring.Buffer.Write` (`if space == 0`): advance the
cursor by `capacity/4`, dropping the oldest quarter.  The Go clamp of `n`
below zero is the truncation of natural subtraction. -/
def dropOldest (b : Buffer) : Buffer :=
  { b with w := (b.w + b.buf.length / 4) % b.buf.length,
           n := b.n - b.buf.length / 4 }

/-- The copy part of one iteration of the `for len(p) > 0` loop of
`ring.Buffer.Write`: copy `chunk = min(len(p), space)` bytes at the end of
the held region, split across the wrap boundary exactly as the two Go `copy`
calls do, and consume them from `p`. -/
def copyChunk (b : Buffer) (p : List Nat) : Buffer × List Nat :=
  let cap := b.buf.length
  let space := cap - b.n
  let chunk := min p.length space
  let endPos := (b.w + b.n) % cap
  let right := min (cap - endPos) chunk
  let buf1 := setSeg b.buf endPos (p.take right)
  let buf2 := if right < chunk then setSeg buf1 0 ((p.take chunk).drop right) else buf1
  (Buffer.mk buf2 b.w (b.n + chunk), p.drop chunk)

/-- One iteration of the `for len(p) > 0` loop of `ring.Buffer.Write`:
drop the oldest quarter if no space is free, then copy. -/
def writeStep (b : Buffer) (p : List Nat) : Buffer × List Nat :=
  let b1 := if b.buf.length - b.n = 0 then dropOldest b else b
  copyChunk b1 p

/-- The write loop with fuel; `p.length` iterations suffice whenever the
capacity is at least 4 (each iteration then consumes at least one byte). -/
def writeLoop : Nat → Buffer → List Nat → Buffer × List Nat
  | 0, b, p => (b, p)
  | fuel + 1, b, p =>
    if p = [] then (b, p)
    else
      let r := writeStep b p
      writeLoop fuel r.1 r.2

/-- Embedding of `ring.Buffer.Write`. -/
def Write (b : Buffer) (p : List Nat) : Buffer :=
  (writeLoop p.length b p).1

/-- Embedding of `ring.Buffer.Snapshot`: a fresh contiguous copy of the `n`
held bytes starting at the cursor, in one or two pieces depending on whether
the held region wraps. -/
def Snapshot (b : Buffer) : List Nat :=
  if b.n = 0 then []
  else
    let head := b.w
    let tail := (b.w + b.n) % b.buf.length
    if head < tail then (b.buf.take tail).drop head
    else b.buf.drop head ++ b.buf.take tail

/-- Structural invariant of a reachable buffer: the cursor is inside the
backing array and the count never exceeds the capacity. -/
def Inv (b : Buffer) : Prop :=
  b.w < b.buf.length ∧ b.n ≤ b.buf.length

/-- Abstract (sequence-level) counterpart of one `writeStep`: on a full
buffer drop the oldest `capacity/4` bytes, then append as many incoming bytes
as fit. -/
def modelStep (cap : Nat) (c p : List Nat) : List Nat × List Nat :=
  let c1 := if cap - c.length = 0 then c.drop (cap / 4) else c
  let k := min p.length (cap - c1.length)
  (c1 ++ p.take k, p.drop k)

/-- Abstract counterpart of the fuelled write loop. -/
def modelLoop : Nat → Nat → List Nat → List Nat → List Nat × List Nat
  | 0, _, c, p => (c, p)
  | fuel + 1, cap, c, p =>
    if p = [] then (c, p)
    else
      let r := modelStep cap c p
      modelLoop fuel cap r.1 r.2

example : Write (New 4) [1, 2, 3, 4, 5] =
    { buf := [5, 2, 3, 4], w := 1, n := 4 } := by decide

example : Snapshot (Write (New 4) [1, 2, 3, 4, 5]) = [2, 3, 4, 5] := by decide

example : Snapshot (Write (Write (New 4) [1, 2]) [3]) = [1, 2, 3] := by decide

example : Snapshot (Write (New 8) [1, 2, 3, 4, 5, 6, 7, 8, 9]) = [3, 4, 5, 6, 7, 8, 9] := by
  decide

lemma mod_inj {cap w a b : Nat} (ha : a < cap) (hb : b < cap)
    (h : (w + a) % cap = (w + b) % cap) : a = b := by
  have h2 : (w + a) ≡ (w + b) [MOD cap] := h
  exact (Nat.ModEq.add_left_cancel' w h2).eq_of_lt_of_lt ha hb

lemma mod_shift {cap x j : Nat} (h : j < cap - x % cap) :
    x % cap + j = (x + j) % cap := by
  calc x % cap + j = (x % cap + j) % cap := (Nat.mod_eq_of_lt (by omega)).symm
    _ = (x + j) % cap := Nat.mod_add_mod x cap j

lemma mod_wrap {cap y : Nat} (h1 : cap ≤ y) (h2 : y < 2 * cap) : y % cap = y - cap := by
  rw [Nat.mod_eq_sub_mod h1, Nat.mod_eq_of_lt (by omega)]

lemma list_ext_getD {l1 l2 : List Nat} (h : l1.length = l2.length)
    (hp : ∀ i, i < l1.length → l1.getD i 0 = l2.getD i 0) : l1 = l2 := by
  refine List.ext_getElem h ?_
  intro i h1 h2
  have := hp i h1
  rwa [List.getD_eq_getElem?_getD, List.getD_eq_getElem?_getD,
    List.getElem?_eq_getElem h1, List.getElem?_eq_getElem h2] at this

lemma setSeg_length {buf src : List Nat} {start : Nat}
    (h : start + src.length ≤ buf.length) :
    (setSeg buf start src).length = buf.length := by
  have hs : start ≤ buf.length := by omega
  simp only [setSeg, List.length_append, List.length_take, List.length_drop]
  rw [Nat.min_eq_left hs]
  omega

lemma setSeg_getD {buf src : List Nat} {start : Nat}
    (h : start + src.length ≤ buf.length) (q : Nat) :
    (setSeg buf start src).getD q 0 =
      if start ≤ q ∧ q < start + src.length then src.getD (q - start) 0
      else buf.getD q 0 := by
  have hs : start ≤ buf.length := by omega
  have htlen : (buf.take start).length = start := by
    simp [List.length_take, Nat.min_eq_left hs]
  have hlen1 : (buf.take start ++ src).length = start + src.length := by
    simp [List.length_append, htlen]
  simp only [setSeg, List.getD_eq_getElem?_getD]
  by_cases h2 : q < start + src.length
  · rw [List.getElem?_append, if_pos (by omega : q < (buf.take start ++ src).length)]
    rw [List.getElem?_append]
    by_cases h1 : q < start
    · rw [if_pos (by omega : q < (buf.take start).length),
        List.getElem?_take, if_pos h1, if_neg (by omega)]
    · rw [if_neg (by omega : ¬ q < (buf.take start).length), htlen,
        if_pos ⟨by omega, h2⟩]
  · rw [List.getElem?_append, if_neg (by omega : ¬ q < (buf.take start ++ src).length),
      hlen1, List.getElem?_drop, if_neg (by omega)]
    have hidx : start + src.length + (q - (start + src.length)) = q := by omega
    rw [hidx]

lemma getD_drop (l : List Nat) (a i : Nat) : (l.drop a).getD i 0 = l.getD (a + i) 0 := by
  rw [List.getD_eq_getElem?_getD, List.getD_eq_getElem?_getD, List.getElem?_drop]

lemma getD_append_left {l1 l2 : List Nat} {i : Nat} (h : i < l1.length) :
    (l1 ++ l2).getD i 0 = l1.getD i 0 := by
  rw [List.getD_eq_getElem?_getD, List.getD_eq_getElem?_getD, List.getElem?_append, if_pos h]

lemma getD_append_right {l1 l2 : List Nat} {i : Nat} (h : l1.length ≤ i) :
    (l1 ++ l2).getD i 0 = l2.getD (i - l1.length) 0 := by
  rw [List.getD_eq_getElem?_getD, List.getD_eq_getElem?_getD, List.getElem?_append,
    if_neg (by omega)]

lemma getD_take_lt (l : List Nat) {a i : Nat} (h : i < a) :
    (l.take a).getD i 0 = l.getD i 0 := by
  rw [List.getD_eq_getElem?_getD, List.getD_eq_getElem?_getD, List.getElem?_take, if_pos h]

lemma length_take_eq {l : List Nat} {k : Nat} (h : k ≤ l.length) :
    (l.take k).length = k := by
  simp [List.length_take, Nat.min_eq_left h]

lemma snapshot_length {b : Buffer} (hw : b.w < b.buf.length) (hn : b.n ≤ b.buf.length) :
    (Snapshot b).length = b.n := by
  by_cases hn0 : b.n = 0
  · simp [Snapshot, hn0]
  · have hcap : 0 < b.buf.length := by omega
    by_cases hlt : b.w + b.n < b.buf.length
    · have htail : (b.w + b.n) % b.buf.length = b.w + b.n := Nat.mod_eq_of_lt hlt
      rw [Snapshot, if_neg hn0]
      simp only [htail]
      rw [if_pos (by omega)]
      simp only [List.length_drop, List.length_take]
      omega
    · have htail : (b.w + b.n) % b.buf.length = b.w + b.n - b.buf.length :=
        mod_wrap (by omega) (by omega)
      rw [Snapshot, if_neg hn0]
      simp only [htail]
      rw [if_neg (by omega)]
      simp only [List.length_append, List.length_drop, List.length_take]
      omega

lemma snapshot_getD {b : Buffer} (hw : b.w < b.buf.length) (hn : b.n ≤ b.buf.length)
    {i : Nat} (hi : i < b.n) :
    (Snapshot b).getD i 0 = b.buf.getD ((b.w + i) % b.buf.length) 0 := by
  have hn0 : b.n ≠ 0 := by omega
  have hcap : 0 < b.buf.length := by omega
  by_cases hlt : b.w + b.n < b.buf.length
  · have htail : (b.w + b.n) % b.buf.length = b.w + b.n := Nat.mod_eq_of_lt hlt
    have hq : (b.w + i) % b.buf.length = b.w + i := Nat.mod_eq_of_lt (by omega)
    rw [Snapshot, if_neg hn0]
    simp only [htail]
    rw [if_pos (by omega), getD_drop, getD_take_lt b.buf (by omega : b.w + i < b.w + b.n), hq]
  · have htail : (b.w + b.n) % b.buf.length = b.w + b.n - b.buf.length :=
      mod_wrap (by omega) (by omega)
    rw [Snapshot, if_neg hn0]
    simp only [htail]
    rw [if_neg (by omega)]
    have hdlen : (b.buf.drop b.w).length = b.buf.length - b.w := List.length_drop b.w b.buf
    rw [List.getD_eq_getElem?_getD, List.getElem?_append]
    by_cases hi2 : i < b.buf.length - b.w
    · rw [if_pos (by omega : i < (b.buf.drop b.w).length), List.getElem?_drop]
      have hq : (b.w + i) % b.buf.length = b.w + i := Nat.mod_eq_of_lt (by omega)
      rw [hq, List.getD_eq_getElem?_getD]
    · rw [if_neg (by omega : ¬ i < (b.buf.drop b.w).length), hdlen]
      have hq : (b.w + i) % b.buf.length = b.w + i - b.buf.length :=
        mod_wrap (by omega) (by omega)
      rw [List.getElem?_take, if_pos (by omega : i - (b.buf.length - b.w) < b.w + b.n - b.buf.length)]
      rw [hq, List.getD_eq_getElem?_getD]
      have hidx : i - (b.buf.length - b.w) = b.w + i - b.buf.length := by omega
      rw [hidx]

/-- Advancing the cursor by `d` and shrinking the count by `d` drops exactly
the `d` oldest bytes of the snapshot. -/
lemma snapshot_dropCursor {b : Buffer} (hw : b.w < b.buf.length) (hn : b.n ≤ b.buf.length)
    {d : Nat} (hd : d ≤ b.n) :
    Snapshot (Buffer.mk b.buf ((b.w + d) % b.buf.length) (b.n - d)) =
      (Snapshot b).drop d := by
  have hcap : 0 < b.buf.length := by omega
  have hw2 : (b.w + d) % b.buf.length < b.buf.length := Nat.mod_lt _ hcap
  have hlen1 : (Snapshot (Buffer.mk b.buf ((b.w + d) % b.buf.length) (b.n - d))).length =
      b.n - d := snapshot_length hw2 (by simp; omega)
  have hlen0 : (Snapshot b).length = b.n := snapshot_length hw hn
  refine list_ext_getD ?_ ?_
  · simp [hlen1, List.length_drop, hlen0]
  · intro i hi
    rw [hlen1] at hi
    rw [snapshot_getD hw2 (by simp; omega) (by simpa using hi)]
    rw [getD_drop, snapshot_getD hw hn (by omega : d + i < b.n)]
    simp only
    rw [Nat.mod_add_mod]
    have : b.w + d + i = b.w + (d + i) := by omega
    rw [this]

/-- Positions holding the old content are untouched by the two-copy write of
`k` fresh bytes at the end of the held region. -/
lemma writeSeg_untouched {buf p : List Nat} {w n k endPos right : Nat}
    (hw : w < buf.length) (_hn : n ≤ buf.length) (hk : n + k ≤ buf.length)
    (hkp : k ≤ p.length)
    (hend : endPos = (w + n) % buf.length)
    (hright : right = min (buf.length - endPos) k)
    {i : Nat} (hi : i < n) :
    (if right < k
      then setSeg (setSeg buf endPos (p.take right)) 0 ((p.take k).drop right)
      else setSeg buf endPos (p.take right)).getD ((w + i) % buf.length) 0 =
    buf.getD ((w + i) % buf.length) 0 := by
  have hcap : 0 < buf.length := by omega
  have hend_lt : endPos < buf.length := hend ▸ Nat.mod_lt _ hcap
  have hr1 : right ≤ k := hright ▸ Nat.min_le_right _ _
  have hr2 : right ≤ buf.length - endPos := hright ▸ Nat.min_le_left _ _
  have hq_lt : (w + i) % buf.length < buf.length := Nat.mod_lt _ hcap
  have hrlen : (p.take right).length = right := length_take_eq (by omega)
  have hklen : (p.take k).length = k := length_take_eq hkp
  have hleg1 : endPos + (p.take right).length ≤ buf.length := by omega
  -- the written positions are exactly the residues of w + n + j for j < k
  have hnotin : ∀ j, j < k → (w + i) % buf.length ≠ (w + n + j) % buf.length := by
    intro j hj heq
    have := @mod_inj buf.length w i (n + j) (by omega) (by omega)
    have heq2 : (w + i) % buf.length = (w + (n + j)) % buf.length := by
      rw [heq]; congr 1; omega
    have := this heq2
    omega
  -- not inside the first copy segment
  have hnot1 : ¬ (endPos ≤ (w + i) % buf.length ∧
      (w + i) % buf.length < endPos + (p.take right).length) := by
    rw [hrlen]
    rintro ⟨ha, hb⟩
    refine hnotin ((w + i) % buf.length - endPos) (by omega) ?_
    have hshift : endPos + ((w + i) % buf.length - endPos) =
        (w + n + ((w + i) % buf.length - endPos)) % buf.length := by
      rw [hend]
      exact mod_shift (by rw [← hend]; omega)
    omega
  by_cases hrk : right < k
  · rw [if_pos hrk]
    have hr3 : right = buf.length - endPos := by omega
    have hdlen : ((p.take k).drop right).length = k - right := by
      simp [List.length_drop, hklen]
    have hleg2 : 0 + ((p.take k).drop right).length ≤
        (setSeg buf endPos (p.take right)).length := by
      rw [setSeg_length hleg1, hdlen]; omega
    rw [setSeg_getD hleg2, hdlen]
    rw [if_neg ?_]
    · rw [setSeg_getD hleg1, if_neg hnot1]
    · rintro ⟨-, hb⟩
      refine hnotin (right + (w + i) % buf.length) (by omega) ?_
      have h1 : (w + n + (right + (w + i) % buf.length)) % buf.length =
          ((w + n) % buf.length + (right + (w + i) % buf.length)) % buf.length :=
        (Nat.mod_add_mod _ _ _).symm
      rw [h1, ← hend]
      have h2 : endPos + (right + (w + i) % buf.length) =
          buf.length + (w + i) % buf.length := by omega
      rw [h2, Nat.add_mod_left, Nat.mod_eq_of_lt hq_lt]
  · rw [if_neg hrk]
    rw [setSeg_getD hleg1, if_neg hnot1]

/-- The two-copy write places byte `j` of the chunk at the residue of
`w + n + j`. -/
lemma writeSeg_written {buf p : List Nat} {w n k endPos right : Nat}
    (hw : w < buf.length) (hk : n + k ≤ buf.length)
    (hkp : k ≤ p.length)
    (hend : endPos = (w + n) % buf.length)
    (hright : right = min (buf.length - endPos) k)
    {j : Nat} (hj : j < k) :
    (if right < k
      then setSeg (setSeg buf endPos (p.take right)) 0 ((p.take k).drop right)
      else setSeg buf endPos (p.take right)).getD ((w + n + j) % buf.length) 0 =
    p.getD j 0 := by
  have hcap : 0 < buf.length := by omega
  have hend_lt : endPos < buf.length := hend ▸ Nat.mod_lt _ hcap
  have hr1 : right ≤ k := hright ▸ Nat.min_le_right _ _
  have hr2 : right ≤ buf.length - endPos := hright ▸ Nat.min_le_left _ _
  have hrlen : (p.take right).length = right := length_take_eq (by omega)
  have hklen : (p.take k).length = k := length_take_eq hkp
  have hleg1 : endPos + (p.take right).length ≤ buf.length := by omega
  by_cases hjr : j < right
  · -- the byte lands in the first copy, before the wrap boundary
    have hpos : (w + n + j) % buf.length = endPos + j := by
      have hshift : endPos + j = (w + n + j) % buf.length := by
        rw [hend]
        exact mod_shift (by rw [← hend]; omega)
      omega
    have hval1 : (setSeg buf endPos (p.take right)).getD (endPos + j) 0 = p.getD j 0 := by
      rw [setSeg_getD hleg1, if_pos ⟨by omega, by omega⟩]
      have : endPos + j - endPos = j := by omega
      rw [this, getD_take_lt p hjr]
    by_cases hrk : right < k
    · rw [if_pos hrk, hpos]
      have hr3 : right = buf.length - endPos := by omega
      have hdlen : ((p.take k).drop right).length = k - right := by
        simp [List.length_drop, hklen]
      have hleg2 : 0 + ((p.take k).drop right).length ≤
          (setSeg buf endPos (p.take right)).length := by
        rw [setSeg_length hleg1, hdlen]; omega
      rw [setSeg_getD hleg2, hdlen, if_neg (by omega : ¬ (0 ≤ endPos + j ∧ endPos + j < 0 + (k - right)))]
      exact hval1
    · rw [if_neg hrk, hpos]
      exact hval1
  · -- the byte wraps to the start of the backing array
    have hrk : right < k := by omega
    rw [if_pos hrk]
    have hr3 : right = buf.length - endPos := by omega
    have hpos : (w + n + j) % buf.length = j - right := by
      have h1 : (w + n + j) % buf.length = ((w + n) % buf.length + j) % buf.length :=
        (Nat.mod_add_mod _ _ _).symm
      rw [h1, ← hend]
      have h2 : endPos + j < 2 * buf.length := by omega
      rw [mod_wrap (by omega) h2]
      omega
    have hdlen : ((p.take k).drop right).length = k - right := by
      simp [List.length_drop, hklen]
    have hleg2 : 0 + ((p.take k).drop right).length ≤
        (setSeg buf endPos (p.take right)).length := by
      rw [setSeg_length hleg1, hdlen]; omega
    rw [hpos, setSeg_getD hleg2, hdlen, if_pos ⟨by omega, by omega⟩]
    have hz : j - right - 0 = j - right := by omega
    rw [hz, getD_drop, getD_take_lt p (by omega : right + (j - right) < k)]
    congr 1
    omega

/-- The two-copy write of `k` incoming bytes extends the snapshot by exactly
those bytes. -/
lemma snapshot_writeSeg {buf p : List Nat} {w n k endPos right : Nat}
    (hw : w < buf.length) (hn : n ≤ buf.length) (hk : n + k ≤ buf.length)
    (hkp : k ≤ p.length)
    (hend : endPos = (w + n) % buf.length)
    (hright : right = min (buf.length - endPos) k) :
    Snapshot (Buffer.mk
      (if right < k
        then setSeg (setSeg buf endPos (p.take right)) 0 ((p.take k).drop right)
        else setSeg buf endPos (p.take right))
      w (n + k)) =
    Snapshot (Buffer.mk buf w n) ++ p.take k := by
  have hcap : 0 < buf.length := by omega
  have hend_lt : endPos < buf.length := hend ▸ Nat.mod_lt _ hcap
  have hr1 : right ≤ k := hright ▸ Nat.min_le_right _ _
  have hr2 : right ≤ buf.length - endPos := hright ▸ Nat.min_le_left _ _
  have hrlen : (p.take right).length = right := length_take_eq (by omega)
  have hklen : (p.take k).length = k := length_take_eq hkp
  have hleg1 : endPos + (p.take right).length ≤ buf.length := by omega
  have hbuf2len :
      (if right < k
        then setSeg (setSeg buf endPos (p.take right)) 0 ((p.take k).drop right)
        else setSeg buf endPos (p.take right)).length = buf.length := by
    by_cases hrk : right < k
    · rw [if_pos hrk]
      have hdlen : ((p.take k).drop right).length = k - right := by
        simp [List.length_drop, hklen]
      have hleg2 : 0 + ((p.take k).drop right).length ≤
          (setSeg buf endPos (p.take right)).length := by
        rw [setSeg_length hleg1, hdlen]; omega
      rw [setSeg_length hleg2, setSeg_length hleg1]
    · rw [if_neg hrk, setSeg_length hleg1]
  have hsnapnew : (Snapshot (Buffer.mk
      (if right < k
        then setSeg (setSeg buf endPos (p.take right)) 0 ((p.take k).drop right)
        else setSeg buf endPos (p.take right)) w (n + k))).length = n + k := by
    simpa using snapshot_length
      (b := Buffer.mk
        (if right < k
          then setSeg (setSeg buf endPos (p.take right)) 0 ((p.take k).drop right)
          else setSeg buf endPos (p.take right)) w (n + k))
      (by simpa [hbuf2len] using hw) (by simp [hbuf2len]; omega)
  have hsnapold : (Snapshot (Buffer.mk buf w n)).length = n := by
    simpa using snapshot_length (b := Buffer.mk buf w n) hw hn
  refine list_ext_getD ?_ ?_
  · rw [hsnapnew]
    simp only [List.length_append, hsnapold, hklen]
  · intro i hi
    rw [hsnapnew] at hi
    rw [snapshot_getD (b := Buffer.mk
        (if right < k
          then setSeg (setSeg buf endPos (p.take right)) 0 ((p.take k).drop right)
          else setSeg buf endPos (p.take right)) w (n + k))
      (by simpa [hbuf2len] using hw) (by simp [hbuf2len]; omega) (by simpa using hi)]
    dsimp only
    rw [hbuf2len]
    by_cases hin : i < n
    · rw [writeSeg_untouched hw hn hk hkp hend hright hin]
      rw [getD_append_left (by rw [hsnapold]; exact hin)]
      have := snapshot_getD (b := Buffer.mk buf w n) hw hn hin
      dsimp only at this
      rw [this]
    · have hidx : w + i = w + n + (i - n) := by omega
      rw [hidx, writeSeg_written hw hk hkp hend hright (by omega : i - n < k)]
      rw [getD_append_right (by rw [hsnapold]; omega)]
      rw [hsnapold, getD_take_lt p (by omega : i - n < k)]

/-- `copyChunk` appends exactly `min(len p, space)` bytes of `p` to the
snapshot and consumes them from `p`, preserving the backing length, the
cursor, and the invariant. -/
lemma copyChunk_sim (b : Buffer) (p : List Nat)
    (hw : b.w < b.buf.length) (hn : b.n ≤ b.buf.length) :
    (copyChunk b p).1.buf.length = b.buf.length ∧
    (copyChunk b p).1.w = b.w ∧
    (copyChunk b p).1.n = b.n + min p.length (b.buf.length - b.n) ∧
    Snapshot (copyChunk b p).1 =
      Snapshot b ++ p.take (min p.length (b.buf.length - b.n)) ∧
    (copyChunk b p).2 = p.drop (min p.length (b.buf.length - b.n)) := by
  obtain ⟨buf, w, n⟩ := b
  simp only at hw hn
  have hk1 : min p.length (buf.length - n) ≤ p.length := Nat.min_le_left _ _
  have hk2 : min p.length (buf.length - n) ≤ buf.length - n := Nat.min_le_right _ _
  have hksum : n + min p.length (buf.length - n) ≤ buf.length := by omega
  have hcap : 0 < buf.length := by omega
  have hend_lt : (w + n) % buf.length < buf.length := Nat.mod_lt _ hcap
  have hr1 : min (buf.length - (w + n) % buf.length) (min p.length (buf.length - n)) ≤
      min p.length (buf.length - n) := Nat.min_le_right _ _
  have hrlen : (p.take (min (buf.length - (w + n) % buf.length)
      (min p.length (buf.length - n)))).length =
      min (buf.length - (w + n) % buf.length) (min p.length (buf.length - n)) :=
    length_take_eq (by omega)
  have hleg1 : (w + n) % buf.length + (p.take (min (buf.length - (w + n) % buf.length)
      (min p.length (buf.length - n)))).length ≤ buf.length := by
    rw [hrlen]
    have : min (buf.length - (w + n) % buf.length) (min p.length (buf.length - n)) ≤
        buf.length - (w + n) % buf.length := Nat.min_le_left _ _
    omega
  have hbuflen :
      (if min (buf.length - (w + n) % buf.length) (min p.length (buf.length - n)) <
          min p.length (buf.length - n)
        then setSeg (setSeg buf ((w + n) % buf.length)
            (p.take (min (buf.length - (w + n) % buf.length) (min p.length (buf.length - n))))) 0
            ((p.take (min p.length (buf.length - n))).drop
              (min (buf.length - (w + n) % buf.length) (min p.length (buf.length - n))))
        else setSeg buf ((w + n) % buf.length)
            (p.take (min (buf.length - (w + n) % buf.length)
              (min p.length (buf.length - n))))).length = buf.length := by
    by_cases hrk : min (buf.length - (w + n) % buf.length) (min p.length (buf.length - n)) <
        min p.length (buf.length - n)
    · rw [if_pos hrk]
      have hdlen : ((p.take (min p.length (buf.length - n))).drop
          (min (buf.length - (w + n) % buf.length) (min p.length (buf.length - n)))).length =
          min p.length (buf.length - n) -
            min (buf.length - (w + n) % buf.length) (min p.length (buf.length - n)) := by
        simp [List.length_drop, length_take_eq hk1]
      have hleg2 : 0 + ((p.take (min p.length (buf.length - n))).drop
          (min (buf.length - (w + n) % buf.length) (min p.length (buf.length - n)))).length ≤
          (setSeg buf ((w + n) % buf.length)
            (p.take (min (buf.length - (w + n) % buf.length)
              (min p.length (buf.length - n))))).length := by
        rw [setSeg_length hleg1, hdlen]; omega
      rw [setSeg_length hleg2, setSeg_length hleg1]
    · rw [if_neg hrk, setSeg_length hleg1]
  refine ⟨?_, rfl, rfl, ?_, rfl⟩
  · simpa only [copyChunk] using hbuflen
  · have := @snapshot_writeSeg buf p w n (min p.length (buf.length - n))
      ((w + n) % buf.length)
      (min (buf.length - (w + n) % buf.length) (min p.length (buf.length - n)))
      hw hn hksum hk1 rfl rfl
    simpa only [copyChunk] using this

/-- One concrete write iteration refines one abstract `modelStep` on the
snapshot, preserving the backing length and the invariant. -/
lemma writeStep_sim (b : Buffer) (p : List Nat) (hInv : Inv b) :
    (writeStep b p).1.buf.length = b.buf.length ∧
    Inv (writeStep b p).1 ∧
    Snapshot (writeStep b p).1 = (modelStep b.buf.length (Snapshot b) p).1 ∧
    (writeStep b p).2 = (modelStep b.buf.length (Snapshot b) p).2 := by
  obtain ⟨hw, hn⟩ := hInv
  have hcap : 0 < b.buf.length := by omega
  have hsl : (Snapshot b).length = b.n := snapshot_length hw hn
  by_cases hfull : b.buf.length - b.n = 0
  · -- overflow: both sides drop the oldest quarter first
    have hnfull : b.n = b.buf.length := by omega
    have hd : b.buf.length / 4 ≤ b.n := by omega
    have hb1 : dropOldest b =
        Buffer.mk b.buf ((b.w + b.buf.length / 4) % b.buf.length)
          (b.n - b.buf.length / 4) := rfl
    have hsnap1 : Snapshot (dropOldest b) = (Snapshot b).drop (b.buf.length / 4) := by
      rw [hb1]
      exact snapshot_dropCursor hw hn hd
    have hw1 : (dropOldest b).w < (dropOldest b).buf.length := by
      rw [hb1]; exact Nat.mod_lt _ hcap
    have hn1 : (dropOldest b).n ≤ (dropOldest b).buf.length := by
      rw [hb1]; simp; omega
    have hc := copyChunk_sim (dropOldest b) p hw1 hn1
    have hn1len : (Snapshot (dropOldest b)).length = b.n - b.buf.length / 4 := by
      rw [hsnap1, List.length_drop, hsl]
    have hguard : b.buf.length - (Snapshot b).length = 0 := by rw [hsl]; omega
    have hstep : writeStep b p = copyChunk (dropOldest b) p := by
      simp only [writeStep, if_pos hfull]
    have hb1buf : (dropOldest b).buf.length = b.buf.length := by rw [hb1]
    have hb1n : (dropOldest b).n = b.n - b.buf.length / 4 := by rw [hb1]
    have hc1len : ((Snapshot b).drop (b.buf.length / 4)).length =
        b.n - b.buf.length / 4 := by rw [List.length_drop, hsl]
    refine ⟨?_, ?_, ?_, ?_⟩
    · rw [hstep, hc.1, hb1buf]
    · constructor
      · rw [hstep]
        have h1 := hc.1
        have h2 := hc.2.1
        have h3 := hc.2.2.1
        rw [h1, h2, hb1buf]
        exact hw1.trans_eq hb1buf
      · rw [hstep, hc.1, hc.2.2.1, hb1buf, hb1n]
        have : min p.length ((dropOldest b).buf.length - (dropOldest b).n) ≤
            (dropOldest b).buf.length - (dropOldest b).n := Nat.min_le_right _ _
        rw [hb1buf, hb1n] at this
        omega
    · rw [hstep, hc.2.2.2.1, hsnap1, modelStep, if_pos hguard]
      simp only [hb1buf, hb1n, hc1len, hsl]
    · rw [hstep, hc.2.2.2.2, modelStep, if_pos hguard]
      simp only [hb1buf, hb1n, hc1len, hsl]
  · -- no overflow
    have hguard : ¬ b.buf.length - (Snapshot b).length = 0 := by rw [hsl]; omega
    have hstep : writeStep b p = copyChunk b p := by
      simp only [writeStep, if_neg hfull]
    have hc := copyChunk_sim b p hw hn
    refine ⟨?_, ?_, ?_, ?_⟩
    · rw [hstep, hc.1]
    · constructor
      · rw [hstep, hc.1, hc.2.1]; exact hw
      · rw [hstep, hc.1, hc.2.2.1]
        have : min p.length (b.buf.length - b.n) ≤ b.buf.length - b.n :=
          Nat.min_le_right _ _
        omega
    · rw [hstep, hc.2.2.2.1, modelStep, if_neg hguard]
      simp only [hsl]
    · rw [hstep, hc.2.2.2.2, modelStep, if_neg hguard]
      simp only [hsl]

/-- The fuelled concrete loop refines the fuelled abstract loop. -/
lemma writeLoop_sim (fuel : Nat) :
    ∀ b p, Inv b →
      (writeLoop fuel b p).1.buf.length = b.buf.length ∧
      Inv (writeLoop fuel b p).1 ∧
      Snapshot (writeLoop fuel b p).1 =
        (modelLoop fuel b.buf.length (Snapshot b) p).1 ∧
      (writeLoop fuel b p).2 = (modelLoop fuel b.buf.length (Snapshot b) p).2 := by
  induction fuel with
  | zero => intro b p hInv; exact ⟨rfl, hInv, rfl, rfl⟩
  | succ fuel ih =>
    intro b p hInv
    by_cases hp : p = []
    · have h1 : writeLoop (fuel + 1) b p = (b, p) := by simp [writeLoop, hp]
      have h2 : modelLoop (fuel + 1) b.buf.length (Snapshot b) p = (Snapshot b, p) := by
        simp [modelLoop, hp]
      rw [h1, h2]
      exact ⟨rfl, hInv, rfl, rfl⟩
    · simp only [writeLoop, modelLoop, if_neg hp]
      have hstep := writeStep_sim b p hInv
      have hrec := ih (writeStep b p).1 (writeStep b p).2 hstep.2.1
      refine ⟨?_, hrec.2.1, ?_, ?_⟩
      · rw [hrec.1, hstep.1]
      · rw [hrec.2.2.1, hstep.1, hstep.2.2.1, hstep.2.2.2]
      · rw [hrec.2.2.2, hstep.1, hstep.2.2.1, hstep.2.2.2]

/-- With capacity at least 4, every loop iteration on a nonempty input
consumes at least one byte. -/
lemma writeStep_progress (b : Buffer) (p : List Nat) (hInv : Inv b)
    (hcap : 4 ≤ b.buf.length) (hp : p ≠ []) :
    (writeStep b p).2.length < p.length := by
  obtain ⟨hw, hn⟩ := hInv
  have hplen : 0 < p.length := List.length_pos.mpr hp
  by_cases hfull : b.buf.length - b.n = 0
  · have hstep : writeStep b p = copyChunk (dropOldest b) p := by
      simp only [writeStep, if_pos hfull]
    have hn1 : (dropOldest b).n = b.n - b.buf.length / 4 := rfl
    have hb1buf : (dropOldest b).buf.length = b.buf.length := rfl
    rw [hstep]
    simp only [copyChunk, List.length_drop, hn1, hb1buf]
    omega
  · have hstep : writeStep b p = copyChunk b p := by
      simp only [writeStep, if_neg hfull]
    rw [hstep]
    simp only [copyChunk, List.length_drop]
    omega

/-- With capacity at least 4, `p.length` fuel steps drain the input
completely: `ring.Buffer.Write` terminates. -/
lemma writeLoop_consumes (fuel : Nat) :
    ∀ b p, Inv b → 4 ≤ b.buf.length → p.length ≤ fuel →
      (writeLoop fuel b p).2 = [] := by
  induction fuel with
  | zero =>
    intro b p _ _ hf
    have : p = [] := by
      cases p with
      | nil => rfl
      | cons x xs => simp at hf
    simp [writeLoop, this]
  | succ fuel ih =>
    intro b p hInv hcap hf
    by_cases hp : p = []
    · simp [writeLoop, hp]
    · simp only [writeLoop, if_neg hp]
      have hstep := writeStep_sim b p hInv
      have hprog := writeStep_progress b p hInv hcap hp
      exact ih (writeStep b p).1 (writeStep b p).2 hstep.2.1
        (by rw [hstep.1]; exact hcap) (by omega)

/-- Appending on the right preserves the suffix relation. -/
lemma isSuffix_append_both {l1 l2 t : List Nat} (h : l1 <:+ l2) : l1 ++ t <:+ l2 ++ t := by
  obtain ⟨u, hu⟩ := h
  exact ⟨u, by rw [← hu, List.append_assoc]⟩

/-- If the abstract loop drains its input, its content stays a suffix of
everything ever offered. -/
lemma modelLoop_suffix (fuel : Nat) :
    ∀ cap c p J, c <:+ J → (modelLoop fuel cap c p).2 = [] →
      (modelLoop fuel cap c p).1 <:+ J ++ p := by
  induction fuel with
  | zero =>
    intro cap c p J hcj hres
    simp only [modelLoop] at hres ⊢
    subst hres
    simpa using hcj
  | succ fuel ih =>
    intro cap c p J hcj hres
    by_cases hp : p = []
    · simp only [modelLoop, if_pos hp] at hres ⊢
      subst hp
      simpa using hcj
    · simp only [modelLoop, if_neg hp] at hres ⊢
      have hc1 : (if cap - c.length = 0 then c.drop (cap / 4) else c) <:+ J := by
        by_cases hg : cap - c.length = 0
        · rw [if_pos hg]
          exact (List.drop_suffix _ _).trans hcj
        · rw [if_neg hg]; exact hcj
      have hstep1 : (modelStep cap c p).1 =
          (if cap - c.length = 0 then c.drop (cap / 4) else c) ++
            p.take (min p.length (cap -
              (if cap - c.length = 0 then c.drop (cap / 4) else c).length)) := rfl
      have hstep2 : (modelStep cap c p).2 =
          p.drop (min p.length (cap -
            (if cap - c.length = 0 then c.drop (cap / 4) else c).length)) := rfl
      have := ih cap (modelStep cap c p).1 (modelStep cap c p).2
        (J ++ p.take (min p.length (cap -
          (if cap - c.length = 0 then c.drop (cap / 4) else c).length)))
        (by rw [hstep1]; exact isSuffix_append_both hc1) hres
      rw [hstep2] at this
      rw [List.append_assoc, List.take_append_drop] at this
      exact this

/-- Size window maintained once writing starts: either nothing has ever been
dropped and the content is the whole input so far, or the buffer has
overflowed at least once and its fill stays in the window left by the
drop-25% policy. -/
def SInv (cap total : Nat) (c : List Nat) : Prop :=
  (c.length = total ∧ total ≤ cap) ∨
  (cap - cap / 4 < c.length ∧ c.length ≤ cap ∧ cap ≤ total)

lemma modelStep_SInv {cap total : Nat} {c p : List Nat} (hcap : 4 ≤ cap)
    (hp : p ≠ []) (h : SInv cap total c) :
    SInv cap (total + min p.length (cap -
        (if cap - c.length = 0 then c.drop (cap / 4) else c).length))
      ((modelStep cap c p).1) ∧
    min p.length (cap -
        (if cap - c.length = 0 then c.drop (cap / 4) else c).length) ≤ p.length := by
  have hplen : 0 < p.length := List.length_pos.mpr hp
  have hclen : c.length ≤ cap := by
    rcases h with ⟨h1, h2⟩ | ⟨_, h2, _⟩
    · omega
    · exact h2
  have hq : 1 ≤ cap / 4 := by omega
  by_cases hg : cap - c.length = 0
  · have hceq : c.length = cap := by omega
    have hc1len : (c.drop (cap / 4)).length = cap - cap / 4 := by
      simp [List.length_drop]; omega
    have hktotal : cap ≤ total := by
      rcases h with ⟨h1, h2⟩ | ⟨_, _, h3⟩
      · omega
      · exact h3
    simp only [if_pos hg] at *
    have hk1 : 1 ≤ min p.length (cap - (c.drop (cap / 4)).length) := by
      rw [hc1len]
      have : 1 ≤ cap - (cap - cap / 4) := by omega
      omega
    have hk2 : min p.length (cap - (c.drop (cap / 4)).length) ≤
        cap - (cap - cap / 4) := by
      rw [hc1len]
      exact (Nat.min_le_right _ _)
    refine ⟨?_, Nat.min_le_left _ _⟩
    have hres : (modelStep cap c p).1 =
        c.drop (cap / 4) ++ p.take (min p.length (cap - (c.drop (cap / 4)).length)) := by
      simp only [modelStep, if_pos hg]
    rw [hres]
    right
    have hkp : min p.length (cap - (c.drop (cap / 4)).length) ≤ p.length :=
      Nat.min_le_left _ _
    have hlt : (p.take (min p.length (cap - (c.drop (cap / 4)).length))).length =
        min p.length (cap - (c.drop (cap / 4)).length) := length_take_eq hkp
    refine ⟨?_, ?_, by omega⟩
    · rw [List.length_append, hlt]
      omega
    · rw [List.length_append, hlt]
      omega
  · simp only [if_neg hg] at *
    have hk1 : 1 ≤ min p.length (cap - c.length) := by omega
    have hkc : min p.length (cap - c.length) ≤ cap - c.length := Nat.min_le_right _ _
    have hkp : min p.length (cap - c.length) ≤ p.length := Nat.min_le_left _ _
    refine ⟨?_, hkp⟩
    have hres : (modelStep cap c p).1 =
        c ++ p.take (min p.length (cap - c.length)) := by
      simp only [modelStep, if_neg hg]
    rw [hres]
    rcases h with ⟨h1, h2⟩ | ⟨h1, h2, h3⟩
    · left
      rw [List.length_append, length_take_eq hkp]
      omega
    · right
      rw [List.length_append, length_take_eq hkp]
      exact ⟨by omega, by omega, by omega⟩

lemma modelLoop_SInv (fuel : Nat) :
    ∀ cap c p total, 4 ≤ cap → SInv cap total c →
      (modelLoop fuel cap c p).2 = [] →
      SInv cap (total + p.length) (modelLoop fuel cap c p).1 := by
  induction fuel with
  | zero =>
    intro cap c p total hcap h hres
    simp only [modelLoop] at hres ⊢
    subst hres
    simpa using h
  | succ fuel ih =>
    intro cap c p total hcap h hres
    by_cases hp : p = []
    · simp only [modelLoop, if_pos hp] at hres ⊢
      subst hp
      simpa using h
    · simp only [modelLoop, if_neg hp] at hres ⊢
      obtain ⟨hstep, hkp⟩ := modelStep_SInv hcap hp h
      have hstep2 : (modelStep cap c p).2 =
          p.drop (min p.length (cap -
            (if cap - c.length = 0 then c.drop (cap / 4) else c).length)) := rfl
      have := ih cap (modelStep cap c p).1 (modelStep cap c p).2
        (total + min p.length (cap -
          (if cap - c.length = 0 then c.drop (cap / 4) else c).length)) hcap hstep hres
      have heq : total + min p.length (cap -
            (if cap - c.length = 0 then c.drop (cap / 4) else c).length) +
          (modelStep cap c p).2.length = total + p.length := by
        rw [hstep2, List.length_drop]
        omega
      rw [heq] at this
      exact this

/-- Invariant carried across a whole sequence of `Write` calls: the snapshot
is a suffix of all input offered so far and its size obeys the window. -/
lemma write_fold_inv (cap : Nat) (hcap : 4 ≤ cap) :
    ∀ (ps : List (List Nat)) (b : Buffer) (J : List Nat),
      Inv b → b.buf.length = cap → Snapshot b <:+ J →
      SInv cap J.length (Snapshot b) →
      Inv (ps.foldl Write b) ∧ (ps.foldl Write b).buf.length = cap ∧
      Snapshot (ps.foldl Write b) <:+ J ++ ps.flatten ∧
      SInv cap (J ++ ps.flatten).length (Snapshot (ps.foldl Write b)) := by
  intro ps
  induction ps with
  | nil =>
    intro b J hInv hlen hsuf hsinv
    simpa using ⟨hInv, hlen, hsuf, hsinv⟩
  | cons p rest ih =>
    intro b J hInv hlen hsuf hsinv
    have hcap4 : 4 ≤ b.buf.length := by omega
    have hsim := writeLoop_sim p.length b p hInv
    have hres : (writeLoop p.length b p).2 = [] :=
      writeLoop_consumes p.length b p hInv hcap4 le_rfl
    have hmres : (modelLoop p.length b.buf.length (Snapshot b) p).2 = [] := by
      rw [← hsim.2.2.2]; exact hres
    have hb' : Inv (Write b p) := hsim.2.1
    have hb'len : (Write b p).buf.length = cap := by
      rw [Write, hsim.1, hlen]
    have hb'snap : Snapshot (Write b p) =
        (modelLoop p.length b.buf.length (Snapshot b) p).1 := hsim.2.2.1
    have hb'suf : Snapshot (Write b p) <:+ J ++ p := by
      rw [hb'snap]
      exact modelLoop_suffix p.length b.buf.length (Snapshot b) p J hsuf hmres
    have hb'sinv : SInv cap (J ++ p).length (Snapshot (Write b p)) := by
      have hmres2 := hmres
      rw [hlen] at hmres2
      rw [hb'snap, List.length_append, hlen]
      exact modelLoop_SInv p.length cap (Snapshot b) p J.length
        (by omega) hsinv hmres2
    have := ih (Write b p) (J ++ p) hb' hb'len hb'suf hb'sinv
    simpa [List.append_assoc] using this

/-- C8: from an empty ring buffer of capacity at least 4, after any sequence
of `Write` calls the stored size never exceeds the capacity, `Snapshot`
returns exactly the held bytes in chronological order — a suffix of the
concatenated input — and once at least `capacity` bytes have been written the
snapshot keeps between three quarters of the capacity and the full capacity. -/
theorem ring_buffer_snapshot (cap : Nat) (ps : List (List Nat)) (hcap : 4 ≤ cap) :
    (ps.foldl Write (New cap)).n ≤ cap ∧
    (Snapshot (ps.foldl Write (New cap))).length = (ps.foldl Write (New cap)).n ∧
    Snapshot (ps.foldl Write (New cap)) <:+ ps.flatten ∧
    (cap ≤ ps.flatten.length →
      3 * cap ≤ 4 * (Snapshot (ps.foldl Write (New cap))).length ∧
      (Snapshot (ps.foldl Write (New cap))).length ≤ cap) := by
  have hInv0 : Inv (New cap) :=
    ⟨by simp [New]; omega, by simp [New]⟩
  have hlen0 : (New cap).buf.length = cap := by simp [New]
  have hsnap0 : Snapshot (New cap) = [] := rfl
  have h := write_fold_inv cap hcap ps (New cap) [] hInv0 hlen0
    (by rw [hsnap0]) (by rw [hsnap0]; exact Or.inl (by simp))
  simp only [List.nil_append] at h
  obtain ⟨hInv, hlen, hsuf, hsinv⟩ := h
  have hslen : (Snapshot (ps.foldl Write (New cap))).length =
      (ps.foldl Write (New cap)).n := snapshot_length hInv.1 hInv.2
  have hn2 := hInv.2
  rw [hlen] at hn2
  refine ⟨hn2, hslen, hsuf, ?_⟩
  intro htot
  rcases hsinv with ⟨h1, h2⟩ | ⟨h1, h2, h3⟩
  · have : (Snapshot (ps.foldl Write (New cap))).length = cap := by omega
    omega
  · omega

/-- Witness for C8 at capacity 4 with five bytes written: the snapshot is the
last four input bytes. -/
theorem ring_buffer_snapshot_witness :
    (([[1, 2, 3, 4, 5]] : List (List Nat)).foldl Write (New 4)).n ≤ 4 ∧
    (Snapshot (([[1, 2, 3, 4, 5]] : List (List Nat)).foldl Write (New 4))).length =
      (([[1, 2, 3, 4, 5]] : List (List Nat)).foldl Write (New 4)).n ∧
    Snapshot (([[1, 2, 3, 4, 5]] : List (List Nat)).foldl Write (New 4)) <:+
      ([[1, 2, 3, 4, 5]] : List (List Nat)).flatten ∧
    (4 ≤ ([[1, 2, 3, 4, 5]] : List (List Nat)).flatten.length →
      3 * 4 ≤ 4 * (Snapshot (([[1, 2, 3, 4, 5]] : List (List Nat)).foldl Write (New 4))).length ∧
      (Snapshot (([[1, 2, 3, 4, 5]] : List (List Nat)).foldl Write (New 4))).length ≤ 4) :=
  ring_buffer_snapshot 4 [[1, 2, 3, 4, 5]] (by decide)

/-- C10: with capacity at least 4 every `Write` terminates, draining its
whole input in at most `len(p)` loop iterations; with capacity 1 to 3 the
overflow step frees `capacity/4 = 0` bytes, so on a full buffer an iteration
changes nothing and the loop can never make progress. -/
theorem ring_write_termination :
    (∀ (b : Buffer) (p : List Nat), Inv b → 4 ≤ b.buf.length →
      (writeLoop p.length b p).2 = []) ∧
    (∀ (b : Buffer) (p : List Nat), Inv b → b.buf.length < 4 →
      b.n = b.buf.length → writeStep b p = (b, p)) := by
  constructor
  · intro b p hInv hcap
    exact writeLoop_consumes p.length b p hInv hcap le_rfl
  · intro b p hInv hsmall hfull
    obtain ⟨hw, hn⟩ := hInv
    have hcap : 0 < b.buf.length := by omega
    have hq : b.buf.length / 4 = 0 := Nat.div_eq_of_lt (by omega)
    have hguard : b.buf.length - b.n = 0 := by omega
    have hdrop : dropOldest b = b := by
      obtain ⟨buf, w, n⟩ := b
      simp only [dropOldest]
      simp only at hq hw
      rw [hq]
      simp [Nat.mod_eq_of_lt hw]
    have hstep : writeStep b p = copyChunk b p := by
      simp only [writeStep, if_pos hguard, hdrop]
    rw [hstep]
    obtain ⟨buf, w, n⟩ := b
    simp only at hfull hw ⊢
    simp only [copyChunk, hfull]
    simp [setSeg, List.take_append_drop]

/-- Witness for C10: a capacity-4 buffer drains a five-byte write, and a full
capacity-2 buffer makes no progress in one overflow iteration. -/
theorem ring_write_termination_witness :
    (writeLoop ([1, 2, 3, 4, 5] : List Nat).length (New 4) [1, 2, 3, 4, 5]).2 = [] ∧
    writeStep (Buffer.mk [7, 8] 0 2) [9] = (Buffer.mk [7, 8] 0 2, [9]) :=
  ⟨ring_write_termination.1 (New 4) [1, 2, 3, 4, 5] ⟨by decide, by decide⟩ (by decide),
   ring_write_termination.2 (Buffer.mk [7, 8] 0 2) [9] ⟨by decide, by decide⟩
     (by decide) (by decide)⟩

end Ring